import Mathlib

/-
  Shallow embedding of DBoW2's ScoringObject.cpp.

  A BowVector (std::map<WordId, WordValue>) is modelled as a list of
  (key, weight) pairs iterated in ascending key order; the Sparse Vector
  invariant (unique keys, ascending order, non-negative weights) is the
  predicate SparseInv.  Machine doubles are modelled as real numbers.
  Each of the six score functions is translated branch for branch from
  the C++ merge loops.  std::map::lower_bound(k) called when the cursor
  sits on an entry whose key is strictly below k is modelled as lowerBound
  applied to the entries after the cursor (every entry at or before the
  cursor has a key strictly below k, so the two coincide).
-/

namespace DBoW2

abbrev WordId : Type := Nat

abbrev WordValue : Type := ℝ

abbrev BowVector : Type := List (WordId × WordValue)

/-- First entry with key ≥ k, starting from the current cursor position. -/
def lowerBound (k : WordId) (v : BowVector) : BowVector :=
  v.dropWhile (fun p => p.1 < k)

/-- Sum of the stored weights of a vector. -/
def sumW (v : BowVector) : ℝ :=
  (v.map Prod.snd).sum

/-- The keys of a vector in iteration order. -/
def keys (v : BowVector) : List WordId :=
  v.map Prod.fst

/-- Ascending-key order (the order part of the Sparse Vector invariant):
strictly ascending, hence unique, keys. -/
def Asc (v : BowVector) : Prop :=
  v.Pairwise (fun p q => p.1 < q.1)

/-- Non-negative weights (the weight part of the Sparse Vector invariant). -/
def Nonneg (v : BowVector) : Prop :=
  ∀ p ∈ v, 0 ≤ p.2

/-- Strictly positive weights. -/
def Pos (v : BowVector) : Prop :=
  ∀ p ∈ v, 0 < p.2

/-- The Sparse Vector invariant: strictly ascending (hence unique) keys and
non-negative weights. -/
def SparseInv (v : BowVector) : Prop :=
  Asc v ∧ Nonneg v

/-- LOG_EPS = log(DBL_EPSILON) with DBL_EPSILON = 2^-52. -/
noncomputable def GeneralScoring.LOG_EPS : ℝ :=
  Real.log ((2 : ℝ) ^ (52 : ℕ))⁻¹

/-- The merge loop of L1Scoring::score. -/
noncomputable def l1merge : BowVector → BowVector → ℝ
  | [], _ => 0
  | _ :: _, [] => 0
  | (k1, vi) :: t1, (k2, wi) :: t2 =>
    if k1 = k2 then
      (|vi - wi| - |vi| - |wi|) + l1merge t1 t2
    else if k1 < k2 then
      l1merge t1 ((k2, wi) :: t2)
    else
      l1merge ((k1, vi) :: t1) t2
termination_by v1 v2 => v1.length + v2.length
decreasing_by all_goals simp_arith

/-- L1Scoring::score. -/
noncomputable def L1Scoring.score (v1 v2 : BowVector) : ℝ :=
  -(l1merge v1 v2) / 2

/-- The body of L2Scoring::score's for_each: the contribution of one entry
of v1, present when its key is found in v2 and the pair is not pure zero. -/
noncomputable def l2term (v2 : BowVector) (p : WordId × WordValue) : Option ℝ :=
  match List.lookup p.1 v2 with
  | some w =>
    if p.2 ≠ 0 ∨ w ≠ 0 then
      some (|p.2 - w| - |p.2| - |w|)
    else
      none
  | none => none

/-- The contributions of L2Scoring::score, summed (real addition is
commutative and associative, so the order of the parallel reduction is
irrelevant; the sequential order is taken). -/
noncomputable def l2sum (v1 v2 : BowVector) : ℝ :=
  (v1.filterMap (l2term v2)).sum

/-- L2Scoring::score. -/
noncomputable def L2Scoring.score (v1 v2 : BowVector) : ℝ :=
  -(l2sum v1 v2) / 2

/-- The merge loop of ChiSquareScoring::score.  In the branch k1 < k2 the
C++ does v1_it = v1.lower_bound(k2); every entry at or before the cursor
has key ≤ k1 < k2, so this is lowerBound k2 t1, and symmetrically. -/
noncomputable def chiMerge : BowVector → BowVector → ℝ
  | [], _ => 0
  | _ :: _, [] => 0
  | (k1, vi) :: t1, (k2, wi) :: t2 =>
    if k1 = k2 then
      (if vi + wi ≠ 0 then vi * wi / (vi + wi) else 0) + chiMerge t1 t2
    else if k1 < k2 then
      chiMerge (lowerBound k2 t1) ((k2, wi) :: t2)
    else
      chiMerge ((k1, vi) :: t1) (lowerBound k1 t2)
termination_by v1 v2 => v1.length + v2.length
decreasing_by
  all_goals
    have h1 : (lowerBound k2 t1).length ≤ t1.length :=
      List.Sublist.length_le (List.dropWhile_sublist _)
    have h2 : (lowerBound k1 t2).length ≤ t2.length :=
      List.Sublist.length_le (List.dropWhile_sublist _)
    simp only [List.length_cons]
    omega

/-- ChiSquareScoring::score. -/
noncomputable def ChiSquareScoring.score (v1 v2 : BowVector) : ℝ :=
  2 * chiMerge v1 v2

/-- The tail loop of KLScoring::score: remaining entries of v1 once v2 is
exhausted. -/
noncomputable def klTail (v : BowVector) : ℝ :=
  (v.map (fun p =>
    if p.2 ≠ 0 then p.2 * (Real.log p.2 - GeneralScoring.LOG_EPS) else 0)).sum

/-- The merge loop of KLScoring::score, including the tail loop. -/
noncomputable def klMerge : BowVector → BowVector → ℝ
  | [], _ => 0
  | p :: t, [] => klTail (p :: t)
  | (k1, vi) :: t1, (k2, wi) :: t2 =>
    if k1 = k2 then
      (if vi ≠ 0 ∧ wi ≠ 0 then vi * Real.log (vi / wi) else 0) + klMerge t1 t2
    else if k1 < k2 then
      vi * (Real.log vi - GeneralScoring.LOG_EPS) + klMerge t1 ((k2, wi) :: t2)
    else
      klMerge ((k1, vi) :: t1) (lowerBound k1 t2)
termination_by v1 v2 => v1.length + v2.length
decreasing_by
  all_goals
    have h2 : (lowerBound k1 t2).length ≤ t2.length :=
      List.Sublist.length_le (List.dropWhile_sublist _)
    simp only [List.length_cons]
    omega

/-- KLScoring::score. -/
noncomputable def KLScoring.score (v1 v2 : BowVector) : ℝ :=
  klMerge v1 v2

/-- The merge loop of BhattacharyyaScoring::score. -/
noncomputable def bhatMerge : BowVector → BowVector → ℝ
  | [], _ => 0
  | _ :: _, [] => 0
  | (k1, vi) :: t1, (k2, wi) :: t2 =>
    if k1 = k2 then
      Real.sqrt (vi * wi) + bhatMerge t1 t2
    else if k1 < k2 then
      bhatMerge (lowerBound k2 t1) ((k2, wi) :: t2)
    else
      bhatMerge ((k1, vi) :: t1) (lowerBound k1 t2)
termination_by v1 v2 => v1.length + v2.length
decreasing_by
  all_goals
    have h1 : (lowerBound k2 t1).length ≤ t1.length :=
      List.Sublist.length_le (List.dropWhile_sublist _)
    have h2 : (lowerBound k1 t2).length ≤ t2.length :=
      List.Sublist.length_le (List.dropWhile_sublist _)
    simp only [List.length_cons]
    omega

/-- BhattacharyyaScoring::score. -/
noncomputable def BhattacharyyaScoring.score (v1 v2 : BowVector) : ℝ :=
  bhatMerge v1 v2

/-- The merge loop of DotProductScoring::score. -/
noncomputable def dotMerge : BowVector → BowVector → ℝ
  | [], _ => 0
  | _ :: _, [] => 0
  | (k1, vi) :: t1, (k2, wi) :: t2 =>
    if k1 = k2 then
      vi * wi + dotMerge t1 t2
    else if k1 < k2 then
      dotMerge (lowerBound k2 t1) ((k2, wi) :: t2)
    else
      dotMerge ((k1, vi) :: t1) (lowerBound k1 t2)
termination_by v1 v2 => v1.length + v2.length
decreasing_by
  all_goals
    have h1 : (lowerBound k2 t1).length ≤ t1.length :=
      List.Sublist.length_le (List.dropWhile_sublist _)
    have h2 : (lowerBound k1 t2).length ≤ t2.length :=
      List.Sublist.length_le (List.dropWhile_sublist _)
    simp only [List.length_cons]
    omega

/-- DotProductScoring::score. -/
noncomputable def DotProductScoring.score (v1 v2 : BowVector) : ℝ :=
  dotMerge v1 v2

/-- What one entry of the first vector contributes to a merge-join, as a
function of the second vector: f on the matched weights when its key is
found, miss on its own weight when not. -/
noncomputable def mergeTerm (f : WordValue → WordValue → ℝ)
    (miss : WordValue → ℝ) (b : BowVector) (p : WordId × WordValue) : ℝ :=
  match List.lookup p.1 b with
  | some w => f p.2 w
  | none => miss p.2

/-- Insertion of an entry with weight 0 at a fresh key, keeping ascending
order (std::map insertion). -/
def insZero (k : WordId) : BowVector → BowVector
  | [] => [(k, 0)]
  | p :: t => if k < p.1 then (k, 0) :: p :: t else p :: insZero k t

/-- KLScoring's tail loop instrumented to report whether it ever evaluates
log at a non-positive argument: none in that case, some of the result
otherwise. -/
noncomputable def klTailChecked : BowVector → Option ℝ
  | [] => some 0
  | p :: t =>
    if p.2 ≠ 0 then
      if 0 < p.2 then
        (klTailChecked t).map
          (fun s => p.2 * (Real.log p.2 - GeneralScoring.LOG_EPS) + s)
      else none
    else klTailChecked t

/-- KLScoring's merge loop instrumented to report whether it ever evaluates
log at a non-positive argument (the match guard already excludes wi = 0
before vi/wi is formed, so no division by zero can occur there): none in
that case, some of the result otherwise. -/
noncomputable def klMergeChecked : BowVector → BowVector → Option ℝ
  | [], _ => some 0
  | p :: t, [] => klTailChecked (p :: t)
  | (k1, vi) :: t1, (k2, wi) :: t2 =>
    if k1 = k2 then
      if vi ≠ 0 ∧ wi ≠ 0 then
        if 0 < vi / wi then
          (klMergeChecked t1 t2).map (fun s => vi * Real.log (vi / wi) + s)
        else none
      else klMergeChecked t1 t2
    else if k1 < k2 then
      if 0 < vi then
        (klMergeChecked t1 ((k2, wi) :: t2)).map
          (fun s => vi * (Real.log vi - GeneralScoring.LOG_EPS) + s)
      else none
    else
      klMergeChecked ((k1, vi) :: t1) (lowerBound k1 t2)
termination_by v1 v2 => v1.length + v2.length
decreasing_by
  all_goals
    have h2 : (lowerBound k1 t2).length ≤ t2.length :=
      List.Sublist.length_le (List.dropWhile_sublist _)
    simp only [List.length_cons]
    omega

/-- Iteration count of the L1 merge loop. -/
def l1Steps : BowVector → BowVector → Nat
  | [], _ => 0
  | _ :: _, [] => 0
  | (k1, vi) :: t1, (k2, wi) :: t2 =>
    if k1 = k2 then l1Steps t1 t2 + 1
    else if k1 < k2 then l1Steps t1 ((k2, wi) :: t2) + 1
    else l1Steps ((k1, vi) :: t1) t2 + 1
termination_by v1 v2 => v1.length + v2.length
decreasing_by all_goals simp_arith

/-- Iteration count of L2's for_each: one visit per entry of v1. -/
def l2Steps (v1 _v2 : BowVector) : Nat :=
  v1.length

/-- Iteration count of the Chi-Square merge loop. -/
def chiSteps : BowVector → BowVector → Nat
  | [], _ => 0
  | _ :: _, [] => 0
  | (k1, vi) :: t1, (k2, wi) :: t2 =>
    if k1 = k2 then chiSteps t1 t2 + 1
    else if k1 < k2 then chiSteps (lowerBound k2 t1) ((k2, wi) :: t2) + 1
    else chiSteps ((k1, vi) :: t1) (lowerBound k1 t2) + 1
termination_by v1 v2 => v1.length + v2.length
decreasing_by
  all_goals
    have h1 : (lowerBound k2 t1).length ≤ t1.length :=
      List.Sublist.length_le (List.dropWhile_sublist _)
    have h2 : (lowerBound k1 t2).length ≤ t2.length :=
      List.Sublist.length_le (List.dropWhile_sublist _)
    simp only [List.length_cons]
    omega

/-- Iteration count of the KL merge loop plus its tail loop. -/
def klSteps : BowVector → BowVector → Nat
  | [], _ => 0
  | p :: t, [] => (p :: t).length
  | (k1, vi) :: t1, (k2, wi) :: t2 =>
    if k1 = k2 then klSteps t1 t2 + 1
    else if k1 < k2 then klSteps t1 ((k2, wi) :: t2) + 1
    else klSteps ((k1, vi) :: t1) (lowerBound k1 t2) + 1
termination_by v1 v2 => v1.length + v2.length
decreasing_by
  all_goals
    have h2 : (lowerBound k1 t2).length ≤ t2.length :=
      List.Sublist.length_le (List.dropWhile_sublist _)
    simp only [List.length_cons]
    omega

/-- Iteration count of the Bhattacharyya merge loop. -/
def bhatSteps : BowVector → BowVector → Nat
  | [], _ => 0
  | _ :: _, [] => 0
  | (k1, vi) :: t1, (k2, wi) :: t2 =>
    if k1 = k2 then bhatSteps t1 t2 + 1
    else if k1 < k2 then bhatSteps (lowerBound k2 t1) ((k2, wi) :: t2) + 1
    else bhatSteps ((k1, vi) :: t1) (lowerBound k1 t2) + 1
termination_by v1 v2 => v1.length + v2.length
decreasing_by
  all_goals
    have h1 : (lowerBound k2 t1).length ≤ t1.length :=
      List.Sublist.length_le (List.dropWhile_sublist _)
    have h2 : (lowerBound k1 t2).length ≤ t2.length :=
      List.Sublist.length_le (List.dropWhile_sublist _)
    simp only [List.length_cons]
    omega

/-- Iteration count of the Dot-Product merge loop. -/
def dotSteps : BowVector → BowVector → Nat
  | [], _ => 0
  | _ :: _, [] => 0
  | (k1, vi) :: t1, (k2, wi) :: t2 =>
    if k1 = k2 then dotSteps t1 t2 + 1
    else if k1 < k2 then dotSteps (lowerBound k2 t1) ((k2, wi) :: t2) + 1
    else dotSteps ((k1, vi) :: t1) (lowerBound k1 t2) + 1
termination_by v1 v2 => v1.length + v2.length
decreasing_by
  all_goals
    have h1 : (lowerBound k2 t1).length ≤ t1.length :=
      List.Sublist.length_le (List.dropWhile_sublist _)
    have h2 : (lowerBound k1 t2).length ≤ t2.length :=
      List.Sublist.length_le (List.dropWhile_sublist _)
    simp only [List.length_cons]
    omega

theorem lowerBound_cons_of_lt {k : WordId} {p : WordId × WordValue}
    {t : BowVector} (h : p.1 < k) :
    lowerBound k (p :: t) = lowerBound k t := by
  simp [lowerBound, List.dropWhile_cons, h]

theorem lowerBound_cons_of_le {k : WordId} {p : WordId × WordValue}
    {t : BowVector} (h : k ≤ p.1) :
    lowerBound k (p :: t) = p :: t := by
  simp [lowerBound, List.dropWhile_cons, Nat.not_lt.mpr h]

theorem lowerBound_sublist (k : WordId) (v : BowVector) :
    (lowerBound k v).Sublist v :=
  List.dropWhile_sublist _

theorem lowerBound_length_le (k : WordId) (v : BowVector) :
    (lowerBound k v).length ≤ v.length :=
  (lowerBound_sublist k v).length_le

theorem lookup_eq_none_of_forall_lt {j : WordId} {b : BowVector}
    (h : ∀ q ∈ b, j < q.1) : List.lookup j b = none := by
  rw [List.lookup_eq_none_iff]
  intro p hp
  simp only [bne_iff_ne, ne_eq]
  exact (h p hp).ne

theorem lookup_lowerBound {k j : WordId} (hk : k ≤ j) (t : BowVector) :
    List.lookup j (lowerBound k t) = List.lookup j t := by
  induction t with
  | nil => simp [lowerBound]
  | cons q t ih =>
    obtain ⟨qk, qv⟩ := q
    by_cases hq : qk < k
    · rw [lowerBound_cons_of_lt hq, ih, List.lookup_cons]
      have hne : (j == qk) = false := by
        simp only [beq_eq_false_iff_ne, ne_eq]
        exact (Nat.lt_of_lt_of_le hq hk).ne'
      rw [hne]
    · rw [lowerBound_cons_of_le (Nat.le_of_not_lt hq)]

theorem sum_map_lowerBound_eq (g : WordId × WordValue → ℝ) (k : WordId)
    (t : BowVector) (hg : ∀ p ∈ t, p.1 < k → g p = 0) :
    ((lowerBound k t).map g).sum = (t.map g).sum := by
  induction t with
  | nil => simp [lowerBound]
  | cons q t ih =>
    by_cases hq : q.1 < k
    · rw [lowerBound_cons_of_lt hq]
      have h0 : g q = 0 := hg q (by simp) hq
      rw [List.map_cons, List.sum_cons, h0, zero_add]
      exact ih (fun p hp hlt => hg p (by simp [hp]) hlt)
    · rw [lowerBound_cons_of_le (Nat.le_of_not_lt hq)]

theorem asc_tail {p : WordId × WordValue} {t : BowVector} (h : Asc (p :: t)) :
    Asc t :=
  (List.pairwise_cons.mp h).2

theorem asc_keys_lt {p : WordId × WordValue} {t : BowVector} (h : Asc (p :: t)) :
    ∀ q ∈ t, p.1 < q.1 :=
  (List.pairwise_cons.mp h).1

theorem asc_lowerBound {k : WordId} {t : BowVector} (h : Asc t) :
    Asc (lowerBound k t) :=
  h.sublist (lowerBound_sublist k t)

theorem mergeTerm_nil (f : WordValue → WordValue → ℝ) (miss : WordValue → ℝ)
    (p : WordId × WordValue) : mergeTerm f miss [] p = miss p.2 := by
  simp [mergeTerm]

theorem mergeTerm_cons_self (f : WordValue → WordValue → ℝ)
    (miss : WordValue → ℝ) (k : WordId) (v w : WordValue) (t : BowVector) :
    mergeTerm f miss ((k, w) :: t) (k, v) = f v w := by
  simp [mergeTerm]

theorem mergeTerm_cons_ne (f : WordValue → WordValue → ℝ)
    (miss : WordValue → ℝ) {p q : WordId × WordValue} (t : BowVector)
    (h : p.1 ≠ q.1) :
    mergeTerm f miss (q :: t) p = mergeTerm f miss t p := by
  obtain ⟨qk, qv⟩ := q
  have hne : (p.1 == qk) = false := by
    simp only [beq_eq_false_iff_ne, ne_eq]
    exact h
  simp only [mergeTerm, List.lookup_cons, hne, cond_false]

theorem mergeTerm_of_lookup_none (f : WordValue → WordValue → ℝ)
    (miss : WordValue → ℝ) {b : BowVector} {p : WordId × WordValue}
    (h : List.lookup p.1 b = none) : mergeTerm f miss b p = miss p.2 := by
  simp [mergeTerm, h]

theorem mergeTerm_forall_lt (f : WordValue → WordValue → ℝ)
    (miss : WordValue → ℝ) {b : BowVector} {p : WordId × WordValue}
    (h : ∀ q ∈ b, p.1 < q.1) : mergeTerm f miss b p = miss p.2 :=
  mergeTerm_of_lookup_none f miss (lookup_eq_none_of_forall_lt h)

theorem mergeTerm_lowerBound (f : WordValue → WordValue → ℝ)
    (miss : WordValue → ℝ) {k : WordId} {p : WordId × WordValue}
    (t : BowVector) (h : k ≤ p.1) :
    mergeTerm f miss (lowerBound k t) p = mergeTerm f miss t p := by
  simp only [mergeTerm, lookup_lowerBound h]

/-- The Chi-Square merge loop sums, over the entries of its first argument
whose key also occurs in the second, the guarded term vi*wi/(vi+wi). -/
theorem chiMerge_char (a b : BowVector) (ha : Asc a) (hb : Asc b) :
    chiMerge a b =
      (a.map (mergeTerm (fun v w => if v + w ≠ 0 then v * w / (v + w) else 0)
        (fun _ => 0) b)).sum := by
  induction a, b using chiMerge.induct with
  | case1 b =>
    simp [chiMerge]
  | case2 p t =>
    rw [chiMerge,
      List.map_congr_left (fun (q : WordId × WordValue) _ => mergeTerm_nil
        (fun v w => if v + w ≠ 0 then v * w / (v + w) else 0) (fun _ => 0) q)]
    simp
  | case3 vi t1 k2 wi t2 ih =>
    rw [chiMerge, if_pos rfl, List.map_cons, List.sum_cons]
    rw [ih (asc_tail ha) (asc_tail hb)]
    rw [mergeTerm_cons_self]
    refine congrArg (fun s => (if vi + wi ≠ 0 then vi * wi / (vi + wi) else 0) + s) ?_
    refine congrArg List.sum ?_
    refine (List.map_congr_left (fun p hp => ?_)).symm
    exact mergeTerm_cons_ne _ _ t2 (asc_keys_lt ha p hp).ne'
  | case4 k1 vi t1 k2 wi t2 h1 h2 ih =>
    rw [chiMerge, if_neg h1, if_pos h2]
    rw [ih (asc_lowerBound (asc_tail ha)) hb]
    rw [List.map_cons, List.sum_cons]
    have hball : ∀ q ∈ (k2, wi) :: t2, (k1, vi).1 < q.1 := by
      intro q hq
      rcases List.mem_cons.mp hq with hq | hq
      · rw [hq]; exact h2
      · exact Nat.lt_trans h2 (asc_keys_lt hb q hq)
    have hhead : mergeTerm (fun v w => if v + w ≠ 0 then v * w / (v + w) else 0)
        (fun _ => (0:ℝ)) ((k2, wi) :: t2) (k1, vi) = 0 :=
      mergeTerm_forall_lt _ _ hball
    rw [hhead, zero_add]
    refine sum_map_lowerBound_eq _ _ _ ?_
    intro p hp hlt
    refine mergeTerm_forall_lt _ _ ?_
    intro q hq
    rcases List.mem_cons.mp hq with hq | hq
    · rw [hq]; exact hlt
    · exact Nat.lt_trans hlt (asc_keys_lt hb q hq)
  | case5 k1 vi t1 k2 wi t2 h1 h2 ih =>
    rw [chiMerge, if_neg h1, if_neg h2]
    rw [ih ha (asc_lowerBound (asc_tail hb))]
    have hk2 : k2 < k1 := Nat.lt_of_le_of_ne (Nat.le_of_not_lt h2)
      (fun e => h1 e.symm)
    refine congrArg List.sum ?_
    refine List.map_congr_left (fun p hp => ?_)
    have hk1 : k1 ≤ p.1 := by
      rcases List.mem_cons.mp hp with hp | hp
      · rw [hp]
      · exact Nat.le_of_lt (asc_keys_lt ha p hp)
    rw [mergeTerm_lowerBound _ _ _ hk1]
    exact (mergeTerm_cons_ne _ _ t2
      (Nat.ne_of_gt (Nat.lt_of_lt_of_le hk2 hk1))).symm

/-- The Bhattacharyya merge loop sums sqrt(vi*wi) over the matched keys. -/
theorem bhatMerge_char (a b : BowVector) (ha : Asc a) (hb : Asc b) :
    bhatMerge a b =
      (a.map (mergeTerm (fun v w => Real.sqrt (v * w)) (fun _ => 0) b)).sum := by
  induction a, b using bhatMerge.induct with
  | case1 b =>
    simp [bhatMerge]
  | case2 p t =>
    rw [bhatMerge,
      List.map_congr_left (fun (q : WordId × WordValue) _ => mergeTerm_nil
        (fun v w => Real.sqrt (v * w)) (fun _ => 0) q)]
    simp
  | case3 vi t1 k2 wi t2 ih =>
    rw [bhatMerge, if_pos rfl, List.map_cons, List.sum_cons]
    rw [ih (asc_tail ha) (asc_tail hb)]
    rw [mergeTerm_cons_self]
    refine congrArg (fun s => Real.sqrt (vi * wi) + s) ?_
    refine congrArg List.sum ?_
    refine (List.map_congr_left (fun p hp => ?_)).symm
    exact mergeTerm_cons_ne _ _ t2 (asc_keys_lt ha p hp).ne'
  | case4 k1 vi t1 k2 wi t2 h1 h2 ih =>
    rw [bhatMerge, if_neg h1, if_pos h2]
    rw [ih (asc_lowerBound (asc_tail ha)) hb]
    rw [List.map_cons, List.sum_cons]
    have hball : ∀ q ∈ (k2, wi) :: t2, (k1, vi).1 < q.1 := by
      intro q hq
      rcases List.mem_cons.mp hq with hq | hq
      · rw [hq]; exact h2
      · exact Nat.lt_trans h2 (asc_keys_lt hb q hq)
    have hhead : mergeTerm (fun v w => Real.sqrt (v * w))
        (fun _ => (0:ℝ)) ((k2, wi) :: t2) (k1, vi) = 0 :=
      mergeTerm_forall_lt _ _ hball
    rw [hhead, zero_add]
    refine sum_map_lowerBound_eq _ _ _ ?_
    intro p hp hlt
    refine mergeTerm_forall_lt _ _ ?_
    intro q hq
    rcases List.mem_cons.mp hq with hq | hq
    · rw [hq]; exact hlt
    · exact Nat.lt_trans hlt (asc_keys_lt hb q hq)
  | case5 k1 vi t1 k2 wi t2 h1 h2 ih =>
    rw [bhatMerge, if_neg h1, if_neg h2]
    rw [ih ha (asc_lowerBound (asc_tail hb))]
    have hk2 : k2 < k1 := Nat.lt_of_le_of_ne (Nat.le_of_not_lt h2)
      (fun e => h1 e.symm)
    refine congrArg List.sum ?_
    refine List.map_congr_left (fun p hp => ?_)
    have hk1 : k1 ≤ p.1 := by
      rcases List.mem_cons.mp hp with hp | hp
      · rw [hp]
      · exact Nat.le_of_lt (asc_keys_lt ha p hp)
    rw [mergeTerm_lowerBound _ _ _ hk1]
    exact (mergeTerm_cons_ne _ _ t2
      (Nat.ne_of_gt (Nat.lt_of_lt_of_le hk2 hk1))).symm

/-- The Dot-Product merge loop sums vi*wi over the matched keys. -/
theorem dotMerge_char (a b : BowVector) (ha : Asc a) (hb : Asc b) :
    dotMerge a b =
      (a.map (mergeTerm (fun v w => v * w) (fun _ => 0) b)).sum := by
  induction a, b using dotMerge.induct with
  | case1 b =>
    simp [dotMerge]
  | case2 p t =>
    rw [dotMerge,
      List.map_congr_left (fun (q : WordId × WordValue) _ => mergeTerm_nil
        (fun v w => v * w) (fun _ => 0) q)]
    simp
  | case3 vi t1 k2 wi t2 ih =>
    rw [dotMerge, if_pos rfl, List.map_cons, List.sum_cons]
    rw [ih (asc_tail ha) (asc_tail hb)]
    rw [mergeTerm_cons_self]
    refine congrArg (fun s => vi * wi + s) ?_
    refine congrArg List.sum ?_
    refine (List.map_congr_left (fun p hp => ?_)).symm
    exact mergeTerm_cons_ne _ _ t2 (asc_keys_lt ha p hp).ne'
  | case4 k1 vi t1 k2 wi t2 h1 h2 ih =>
    rw [dotMerge, if_neg h1, if_pos h2]
    rw [ih (asc_lowerBound (asc_tail ha)) hb]
    rw [List.map_cons, List.sum_cons]
    have hball : ∀ q ∈ (k2, wi) :: t2, (k1, vi).1 < q.1 := by
      intro q hq
      rcases List.mem_cons.mp hq with hq | hq
      · rw [hq]; exact h2
      · exact Nat.lt_trans h2 (asc_keys_lt hb q hq)
    have hhead : mergeTerm (fun v w => v * w)
        (fun _ => (0:ℝ)) ((k2, wi) :: t2) (k1, vi) = 0 :=
      mergeTerm_forall_lt _ _ hball
    rw [hhead, zero_add]
    refine sum_map_lowerBound_eq _ _ _ ?_
    intro p hp hlt
    refine mergeTerm_forall_lt _ _ ?_
    intro q hq
    rcases List.mem_cons.mp hq with hq | hq
    · rw [hq]; exact hlt
    · exact Nat.lt_trans hlt (asc_keys_lt hb q hq)
  | case5 k1 vi t1 k2 wi t2 h1 h2 ih =>
    rw [dotMerge, if_neg h1, if_neg h2]
    rw [ih ha (asc_lowerBound (asc_tail hb))]
    have hk2 : k2 < k1 := Nat.lt_of_le_of_ne (Nat.le_of_not_lt h2)
      (fun e => h1 e.symm)
    refine congrArg List.sum ?_
    refine List.map_congr_left (fun p hp => ?_)
    have hk1 : k1 ≤ p.1 := by
      rcases List.mem_cons.mp hp with hp | hp
      · rw [hp]
      · exact Nat.le_of_lt (asc_keys_lt ha p hp)
    rw [mergeTerm_lowerBound _ _ _ hk1]
    exact (mergeTerm_cons_ne _ _ t2
      (Nat.ne_of_gt (Nat.lt_of_lt_of_le hk2 hk1))).symm

/-- The L1 merge loop sums |vi-wi| - |vi| - |wi| over the matched keys. -/
theorem l1merge_char (a b : BowVector) (ha : Asc a) (hb : Asc b) :
    l1merge a b =
      (a.map (mergeTerm (fun v w => |v - w| - |v| - |w|) (fun _ => 0) b)).sum := by
  induction a, b using l1merge.induct with
  | case1 b =>
    simp [l1merge]
  | case2 p t =>
    rw [l1merge,
      List.map_congr_left (fun (q : WordId × WordValue) _ => mergeTerm_nil
        (fun v w => |v - w| - |v| - |w|) (fun _ => 0) q)]
    simp
  | case3 vi t1 k2 wi t2 ih =>
    rw [l1merge, if_pos rfl, List.map_cons, List.sum_cons]
    rw [ih (asc_tail ha) (asc_tail hb)]
    rw [mergeTerm_cons_self]
    refine congrArg (fun s => (|vi - wi| - |vi| - |wi|) + s) ?_
    refine congrArg List.sum ?_
    refine (List.map_congr_left (fun p hp => ?_)).symm
    exact mergeTerm_cons_ne _ _ t2 (asc_keys_lt ha p hp).ne'
  | case4 k1 vi t1 k2 wi t2 h1 h2 ih =>
    rw [l1merge, if_neg h1, if_pos h2]
    rw [ih (asc_tail ha) hb]
    rw [List.map_cons, List.sum_cons]
    have hball : ∀ q ∈ (k2, wi) :: t2, (k1, vi).1 < q.1 := by
      intro q hq
      rcases List.mem_cons.mp hq with hq | hq
      · rw [hq]; exact h2
      · exact Nat.lt_trans h2 (asc_keys_lt hb q hq)
    have hhead : mergeTerm (fun v w => |v - w| - |v| - |w|)
        (fun _ => (0:ℝ)) ((k2, wi) :: t2) (k1, vi) = 0 :=
      mergeTerm_forall_lt _ _ hball
    rw [hhead, zero_add]
  | case5 k1 vi t1 k2 wi t2 h1 h2 ih =>
    rw [l1merge, if_neg h1, if_neg h2]
    rw [ih ha (asc_tail hb)]
    have hk2 : k2 < k1 := Nat.lt_of_le_of_ne (Nat.le_of_not_lt h2)
      (fun e => h1 e.symm)
    refine congrArg List.sum ?_
    refine List.map_congr_left (fun p hp => ?_)
    have hk1 : k1 ≤ p.1 := by
      rcases List.mem_cons.mp hp with hp | hp
      · rw [hp]
      · exact Nat.le_of_lt (asc_keys_lt ha p hp)
    exact (mergeTerm_cons_ne _ _ t2
      (Nat.ne_of_gt (Nat.lt_of_lt_of_le hk2 hk1))).symm

/-- The KL merge loop (with its tail loop) sums, over all entries of its
first argument, the matched term vi*log(vi/wi) when the key occurs in the
second vector and the epsilon-floor term vi*(log vi - LOG_EPS) when not. -/
theorem klMerge_char (a b : BowVector) (ha : Asc a) (hb : Asc b) :
    klMerge a b =
      (a.map (mergeTerm
        (fun v w => if v ≠ 0 ∧ w ≠ 0 then v * Real.log (v / w) else 0)
        (fun v => v * (Real.log v - GeneralScoring.LOG_EPS)) b)).sum := by
  induction a, b using klMerge.induct with
  | case1 b =>
    simp [klMerge]
  | case2 p t =>
    rw [klMerge,
      List.map_congr_left (fun (q : WordId × WordValue) _ => mergeTerm_nil
        (fun v w => if v ≠ 0 ∧ w ≠ 0 then v * Real.log (v / w) else 0)
        (fun v => v * (Real.log v - GeneralScoring.LOG_EPS)) q)]
    rw [klTail]
    refine congrArg List.sum ?_
    refine List.map_congr_left (fun q hq => ?_)
    by_cases hz : q.2 = 0
    · simp [hz]
    · simp [hz]
  | case3 vi t1 k2 wi t2 ih =>
    rw [klMerge, if_pos rfl, List.map_cons, List.sum_cons]
    rw [ih (asc_tail ha) (asc_tail hb)]
    rw [mergeTerm_cons_self]
    refine congrArg
      (fun s => (if vi ≠ 0 ∧ wi ≠ 0 then vi * Real.log (vi / wi) else 0) + s) ?_
    refine congrArg List.sum ?_
    refine (List.map_congr_left (fun p hp => ?_)).symm
    exact mergeTerm_cons_ne _ _ t2 (asc_keys_lt ha p hp).ne'
  | case4 k1 vi t1 k2 wi t2 h1 h2 ih =>
    rw [klMerge, if_neg h1, if_pos h2]
    rw [ih (asc_tail ha) hb]
    rw [List.map_cons, List.sum_cons]
    have hball : ∀ q ∈ (k2, wi) :: t2, (k1, vi).1 < q.1 := by
      intro q hq
      rcases List.mem_cons.mp hq with hq | hq
      · rw [hq]; exact h2
      · exact Nat.lt_trans h2 (asc_keys_lt hb q hq)
    have hhead : mergeTerm
        (fun v w => if v ≠ 0 ∧ w ≠ 0 then v * Real.log (v / w) else 0)
        (fun v => v * (Real.log v - GeneralScoring.LOG_EPS))
        ((k2, wi) :: t2) (k1, vi)
        = vi * (Real.log vi - GeneralScoring.LOG_EPS) :=
      mergeTerm_forall_lt _ _ hball
    rw [hhead]
  | case5 k1 vi t1 k2 wi t2 h1 h2 ih =>
    rw [klMerge, if_neg h1, if_neg h2]
    rw [ih ha (asc_lowerBound (asc_tail hb))]
    have hk2 : k2 < k1 := Nat.lt_of_le_of_ne (Nat.le_of_not_lt h2)
      (fun e => h1 e.symm)
    refine congrArg List.sum ?_
    refine List.map_congr_left (fun p hp => ?_)
    have hk1 : k1 ≤ p.1 := by
      rcases List.mem_cons.mp hp with hp | hp
      · rw [hp]
      · exact Nat.le_of_lt (asc_keys_lt ha p hp)
    rw [mergeTerm_lowerBound _ _ _ hk1]
    exact (mergeTerm_cons_ne _ _ t2
      (Nat.ne_of_gt (Nat.lt_of_lt_of_le hk2 hk1))).symm

theorem l1merge_nil_right (a : BowVector) : l1merge a [] = 0 := by
  cases a with
  | nil => rw [l1merge]
  | cons p t => rw [l1merge]

theorem chiMerge_nil_right (a : BowVector) : chiMerge a [] = 0 := by
  cases a with
  | nil => rw [chiMerge]
  | cons p t => rw [chiMerge]

theorem bhatMerge_nil_right (a : BowVector) : bhatMerge a [] = 0 := by
  cases a with
  | nil => rw [bhatMerge]
  | cons p t => rw [bhatMerge]

theorem dotMerge_nil_right (a : BowVector) : dotMerge a [] = 0 := by
  cases a with
  | nil => rw [dotMerge]
  | cons p t => rw [dotMerge]

theorem klMerge_nil_right (a : BowVector) : klMerge a [] = klTail a := by
  cases a with
  | nil => rw [klMerge, klTail]; simp
  | cons p t => rw [klMerge]

/-- The L1 merge loop is symmetric in its two arguments. -/
theorem l1merge_comm (a b : BowVector) : l1merge a b = l1merge b a := by
  induction a, b using l1merge.induct with
  | case1 b => rw [l1merge, l1merge_nil_right]
  | case2 p t => rw [l1merge_nil_right, l1merge]
  | case3 vi t1 k2 wi t2 ih =>
    rw [l1merge, if_pos rfl, l1merge, if_pos rfl, ih, abs_sub_comm wi vi]
    ring
  | case4 k1 vi t1 k2 wi t2 h1 h2 ih =>
    have h1' : ¬k2 = k1 := fun e => h1 e.symm
    have h2' : ¬k2 < k1 := Nat.not_lt.mpr (Nat.le_of_lt h2)
    rw [l1merge, if_neg h1, if_pos h2, ih, l1merge, if_neg h1', if_neg h2']
  | case5 k1 vi t1 k2 wi t2 h1 h2 ih =>
    have hk2 : k2 < k1 := Nat.lt_of_le_of_ne (Nat.le_of_not_lt h2)
      (fun e => h1 e.symm)
    have h1' : ¬k2 = k1 := fun e => h1 e.symm
    rw [l1merge, if_neg h1, if_neg h2, ih, l1merge, if_neg h1', if_pos hk2]

/-- The Chi-Square merge loop is symmetric in its two arguments. -/
theorem chiMerge_comm (a b : BowVector) : chiMerge a b = chiMerge b a := by
  induction a, b using chiMerge.induct with
  | case1 b => rw [chiMerge, chiMerge_nil_right]
  | case2 p t => rw [chiMerge_nil_right, chiMerge]
  | case3 vi t1 k2 wi t2 ih =>
    rw [chiMerge, if_pos rfl, chiMerge, if_pos rfl, ih, add_comm wi vi,
      mul_comm wi vi]
  | case4 k1 vi t1 k2 wi t2 h1 h2 ih =>
    have h1' : ¬k2 = k1 := fun e => h1 e.symm
    have h2' : ¬k2 < k1 := Nat.not_lt.mpr (Nat.le_of_lt h2)
    rw [chiMerge, if_neg h1, if_pos h2, ih, chiMerge, if_neg h1', if_neg h2']
  | case5 k1 vi t1 k2 wi t2 h1 h2 ih =>
    have hk2 : k2 < k1 := Nat.lt_of_le_of_ne (Nat.le_of_not_lt h2)
      (fun e => h1 e.symm)
    have h1' : ¬k2 = k1 := fun e => h1 e.symm
    rw [chiMerge, if_neg h1, if_neg h2, ih, chiMerge, if_neg h1', if_pos hk2]

/-- The Bhattacharyya merge loop is symmetric in its two arguments. -/
theorem bhatMerge_comm (a b : BowVector) : bhatMerge a b = bhatMerge b a := by
  induction a, b using bhatMerge.induct with
  | case1 b => rw [bhatMerge, bhatMerge_nil_right]
  | case2 p t => rw [bhatMerge_nil_right, bhatMerge]
  | case3 vi t1 k2 wi t2 ih =>
    rw [bhatMerge, if_pos rfl, bhatMerge, if_pos rfl, ih, mul_comm wi vi]
  | case4 k1 vi t1 k2 wi t2 h1 h2 ih =>
    have h1' : ¬k2 = k1 := fun e => h1 e.symm
    have h2' : ¬k2 < k1 := Nat.not_lt.mpr (Nat.le_of_lt h2)
    rw [bhatMerge, if_neg h1, if_pos h2, ih, bhatMerge, if_neg h1', if_neg h2']
  | case5 k1 vi t1 k2 wi t2 h1 h2 ih =>
    have hk2 : k2 < k1 := Nat.lt_of_le_of_ne (Nat.le_of_not_lt h2)
      (fun e => h1 e.symm)
    have h1' : ¬k2 = k1 := fun e => h1 e.symm
    rw [bhatMerge, if_neg h1, if_neg h2, ih, bhatMerge, if_neg h1', if_pos hk2]

/-- The Dot-Product merge loop is symmetric in its two arguments. -/
theorem dotMerge_comm (a b : BowVector) : dotMerge a b = dotMerge b a := by
  induction a, b using dotMerge.induct with
  | case1 b => rw [dotMerge, dotMerge_nil_right]
  | case2 p t => rw [dotMerge_nil_right, dotMerge]
  | case3 vi t1 k2 wi t2 ih =>
    rw [dotMerge, if_pos rfl, dotMerge, if_pos rfl, ih, mul_comm wi vi]
  | case4 k1 vi t1 k2 wi t2 h1 h2 ih =>
    have h1' : ¬k2 = k1 := fun e => h1 e.symm
    have h2' : ¬k2 < k1 := Nat.not_lt.mpr (Nat.le_of_lt h2)
    rw [dotMerge, if_neg h1, if_pos h2, ih, dotMerge, if_neg h1', if_neg h2']
  | case5 k1 vi t1 k2 wi t2 h1 h2 ih =>
    have hk2 : k2 < k1 := Nat.lt_of_le_of_ne (Nat.le_of_not_lt h2)
      (fun e => h1 e.symm)
    have h1' : ¬k2 = k1 := fun e => h1 e.symm
    rw [dotMerge, if_neg h1, if_neg h2, ih, dotMerge, if_neg h1', if_pos hk2]

theorem nonneg_tail {p : WordId × WordValue} {t : BowVector}
    (h : Nonneg (p :: t)) : Nonneg t :=
  fun q hq => h q (List.mem_cons_of_mem p hq)

theorem nonneg_lowerBound {k : WordId} {t : BowVector} (h : Nonneg t) :
    Nonneg (lowerBound k t) :=
  fun q hq => h q ((lowerBound_sublist k t).subset hq)

theorem mem_of_lookup_eq_some {j : WordId} {w : WordValue} {b : BowVector}
    (h : List.lookup j b = some w) : (j, w) ∈ b := by
  rw [List.lookup_eq_some_iff] at h
  obtain ⟨l1, l2, rfl, -⟩ := h
  simp

theorem keys_cons (p : WordId × WordValue) (t : BowVector) :
    keys (p :: t) = p.1 :: keys t :=
  rfl

theorem keys_ne_of_not_mem {k : WordId} {v : BowVector} (hk : k ∉ keys v) :
    ∀ p ∈ v, p.1 ≠ k :=
  fun p hp e => hk (List.mem_map.mpr ⟨p, hp, e⟩)

theorem not_mem_keys_tail {k : WordId} {p : WordId × WordValue}
    {t : BowVector} (hk : k ∉ keys (p :: t)) : k ∉ keys t :=
  fun hmem => hk (by rw [keys_cons]; exact List.mem_cons_of_mem _ hmem)

theorem mem_insZero {k : WordId} {q : WordId × WordValue} {a : BowVector} :
    q ∈ insZero k a ↔ q = (k, 0) ∨ q ∈ a := by
  induction a with
  | nil => simp [insZero]
  | cons p t ih =>
    by_cases hk : k < p.1
    · simp [insZero, hk]
    · simp only [insZero, if_neg hk, List.mem_cons, ih]
      tauto

theorem asc_insZero {k : WordId} {a : BowVector} (ha : Asc a)
    (hk : k ∉ keys a) : Asc (insZero k a) := by
  induction a with
  | nil =>
    simp [insZero, Asc]
  | cons p t ih =>
    have hpk : p.1 ≠ k := keys_ne_of_not_mem hk p (by simp)
    have hkt : k ∉ keys t := not_mem_keys_tail hk
    by_cases h : k < p.1
    · rw [insZero, if_pos h]
      refine List.pairwise_cons.mpr ⟨?_, ha⟩
      intro q hq
      rcases List.mem_cons.mp hq with hq | hq
      · rw [hq]; exact h
      · exact Nat.lt_trans h (asc_keys_lt ha q hq)
    · have hpk' : p.1 < k := Nat.lt_of_le_of_ne (Nat.le_of_not_lt h) hpk
      rw [insZero, if_neg h]
      refine List.pairwise_cons.mpr ⟨?_, ih (asc_tail ha) hkt⟩
      intro q hq
      rcases mem_insZero.mp hq with hq | hq
      · rw [hq]; exact hpk'
      · exact asc_keys_lt ha q hq

theorem nonneg_insZero {k : WordId} {a : BowVector} (h : Nonneg a) :
    Nonneg (insZero k a) := by
  intro q hq
  rcases mem_insZero.mp hq with hq | hq
  · rw [hq]
  · exact h q hq

theorem sparseInv_insZero {k : WordId} {a : BowVector} (h : SparseInv a)
    (hk : k ∉ keys a) : SparseInv (insZero k a) :=
  ⟨asc_insZero h.1 hk, nonneg_insZero h.2⟩

theorem sum_map_insZero (g : WordId × WordValue → ℝ) (k : WordId)
    (a : BowVector) :
    ((insZero k a).map g).sum = g (k, 0) + (a.map g).sum := by
  induction a with
  | nil => simp [insZero]
  | cons p t ih =>
    by_cases h : k < p.1
    · rw [insZero, if_pos h]
      simp
    · rw [insZero, if_neg h, List.map_cons, List.sum_cons, ih,
        List.map_cons, List.sum_cons]
      ring

theorem lookup_insZero_of_ne {j k : WordId} (h : j ≠ k) (b : BowVector) :
    List.lookup j (insZero k b) = List.lookup j b := by
  have hjk : (j == k) = false := by
    simp only [beq_eq_false_iff_ne, ne_eq]
    exact h
  induction b with
  | nil => simp [insZero, List.lookup_cons, hjk]
  | cons p t ih =>
    by_cases hk : k < p.1
    · rw [insZero, if_pos hk, List.lookup_cons, hjk]
    · rw [insZero, if_neg hk]
      obtain ⟨pk, pv⟩ := p
      by_cases hj : j = pk
      · subst hj
        simp [List.lookup_cons]
      · have hj' : (j == pk) = false := by
          simp only [beq_eq_false_iff_ne, ne_eq]
          exact hj
        simp only [List.lookup_cons, hj', cond_false, ih]

theorem lookup_insZero_self {k : WordId} {b : BowVector} (hk : k ∉ keys b) :
    List.lookup k (insZero k b) = some 0 := by
  induction b with
  | nil => simp [insZero]
  | cons p t ih =>
    have hpk : p.1 ≠ k := keys_ne_of_not_mem hk p (by simp)
    have hkt : k ∉ keys t := not_mem_keys_tail hk
    by_cases h : k < p.1
    · rw [insZero, if_pos h]
      simp
    · rw [insZero, if_neg h]
      obtain ⟨pk, pv⟩ := p
      have hk' : (k == pk) = false := by
        simp only [beq_eq_false_iff_ne, ne_eq]
        exact fun e => hpk e.symm
      simp only [List.lookup_cons, hk', cond_false]
      exact ih hkt

theorem pos_tail {p : WordId × WordValue} {t : BowVector}
    (h : Pos (p :: t)) : Pos t :=
  fun q hq => h q (List.mem_cons_of_mem p hq)

theorem sumW_nil : sumW [] = 0 := rfl

theorem sumW_cons (p : WordId × WordValue) (t : BowVector) :
    sumW (p :: t) = p.2 + sumW t := by
  simp [sumW]

theorem sumW_nonneg {v : BowVector} (h : Nonneg v) : 0 ≤ sumW v := by
  induction v with
  | nil => simp [sumW]
  | cons p t ih =>
    rw [sumW_cons]
    have h1 : 0 ≤ p.2 := h p (by simp)
    have h2 : 0 ≤ sumW t := ih (nonneg_tail h)
    linarith

theorem sumW_lowerBound_le {k : WordId} {t : BowVector} (h : Nonneg t) :
    sumW (lowerBound k t) ≤ sumW t := by
  induction t with
  | nil => simp [lowerBound]
  | cons p t ih =>
    by_cases hp : p.1 < k
    · rw [lowerBound_cons_of_lt hp, sumW_cons]
      have h1 : 0 ≤ p.2 := h p (by simp)
      have h2 := ih (nonneg_tail h)
      linarith
    · rw [lowerBound_cons_of_le (Nat.le_of_not_lt hp)]

theorem LOG_EPS_neg : GeneralScoring.LOG_EPS < 0 := by
  rw [GeneralScoring.LOG_EPS, Real.log_inv]
  have h : 0 < Real.log ((2 : ℝ) ^ (52 : ℕ)) := Real.log_pos (by norm_num)
  linarith

theorem klTailChecked_pos {v : BowVector} (h : Pos v) :
    klTailChecked v = some (klTail v) := by
  induction v with
  | nil => rw [klTailChecked, klTail]; simp
  | cons p t ih =>
    have hp : 0 < p.2 := h p (by simp)
    rw [klTailChecked, if_pos hp.ne', if_pos hp, ih (pos_tail h)]
    simp only [klTail, List.map_cons, List.sum_cons, if_pos hp.ne',
      Option.map_some']

theorem klMergeChecked_pos (a b : BowVector) (ha : Pos a) (hb : Nonneg b) :
    klMergeChecked a b = some (klMerge a b) := by
  induction a, b using klMergeChecked.induct with
  | case1 b => rw [klMergeChecked, klMerge]
  | case2 p t => rw [klMergeChecked, klMerge, klTailChecked_pos ha]
  | case3 vi t1 k2 wi t2 hg hpos ih =>
    rw [klMergeChecked, if_pos rfl, if_pos hg, if_pos hpos,
      ih (pos_tail ha) (nonneg_tail hb), klMerge, if_pos rfl, if_pos hg,
      Option.map_some']
  | case4 vi t1 k2 wi t2 hg hpos =>
    have hvi : 0 < vi := ha (k2, vi) (by simp)
    have hwi : 0 < wi :=
      lt_of_le_of_ne (hb (k2, wi) (by simp)) (Ne.symm hg.2)
    exact absurd (div_pos hvi hwi) hpos
  | case5 vi t1 k2 wi t2 hg ih =>
    rw [klMergeChecked, if_pos rfl, if_neg hg,
      ih (pos_tail ha) (nonneg_tail hb), klMerge, if_pos rfl, if_neg hg,
      zero_add]
  | case6 k1 vi t1 k2 wi t2 h1 h2 hvi ih =>
    rw [klMergeChecked, if_neg h1, if_pos h2, if_pos hvi,
      ih (pos_tail ha) hb, klMerge, if_neg h1, if_pos h2, Option.map_some']
  | case7 k1 vi t1 k2 wi t2 h1 h2 hvi =>
    exact absurd (ha (k1, vi) (by simp)) hvi
  | case8 k1 vi t1 k2 wi t2 h1 h2 ih =>
    rw [klMergeChecked, if_neg h1, if_neg h2,
      ih ha (nonneg_lowerBound (nonneg_tail hb)), klMerge, if_neg h1,
      if_neg h2]

/-- Bhattacharyya self-score: each matched term is sqrt(v*v) = v. -/
theorem bhatMerge_self {a : BowVector} (h : Nonneg a) :
    bhatMerge a a = sumW a := by
  induction a with
  | nil => rw [bhatMerge, sumW_nil]
  | cons p t ih =>
    obtain ⟨k, v⟩ := p
    rw [bhatMerge, if_pos rfl, ih (nonneg_tail h), sumW_cons,
      Real.sqrt_mul_self (h (k, v) (by simp))]

/-- Chi-Square self-merge: each matched term is v*v/(v+v) = v/2 (or a zero
weight contributing 0 = 0/2). -/
theorem chiMerge_self (a : BowVector) : chiMerge a a = sumW a / 2 := by
  induction a with
  | nil => rw [chiMerge, sumW_nil]; norm_num
  | cons p t ih =>
    obtain ⟨k, v⟩ := p
    rw [chiMerge, if_pos rfl, ih, sumW_cons]
    by_cases hv : v = 0
    · subst hv
      norm_num
    · have hvv : v + v ≠ 0 := by
        intro h0
        exact hv (by linarith)
      rw [if_pos hvv]
      field_simp
      ring

/-- KL self-merge: each matched non-zero pair contributes v*log(v/v) = 0. -/
theorem klMerge_self (a : BowVector) : klMerge a a = 0 := by
  induction a with
  | nil => rw [klMerge]
  | cons p t ih =>
    obtain ⟨k, v⟩ := p
    rw [klMerge, if_pos rfl, ih]
    by_cases hv : v = 0
    · simp [hv]
    · rw [if_pos ⟨hv, hv⟩, div_self hv, Real.log_one]
      ring

/-- The Bhattacharyya merge is bounded by the arithmetic mean of the two
total weights (AM-GM on each matched term). -/
theorem bhatMerge_le (a b : BowVector) (ha : Nonneg a) (hb : Nonneg b) :
    bhatMerge a b ≤ (sumW a + sumW b) / 2 := by
  induction a, b using bhatMerge.induct with
  | case1 b =>
    rw [bhatMerge, sumW_nil]
    have := sumW_nonneg hb
    linarith
  | case2 p t =>
    rw [bhatMerge, sumW_nil]
    have := sumW_nonneg ha
    linarith
  | case3 vi t1 k2 wi t2 ih =>
    rw [bhatMerge, if_pos rfl, sumW_cons, sumW_cons]
    have hv : 0 ≤ vi := ha (k2, vi) (by simp)
    have hw : 0 ≤ wi := hb (k2, wi) (by simp)
    have hs := ih (nonneg_tail ha) (nonneg_tail hb)
    have h1 : Real.sqrt (vi * wi) = Real.sqrt vi * Real.sqrt wi :=
      Real.sqrt_mul hv wi
    have hsq : Real.sqrt (vi * wi) ≤ (vi + wi) / 2 := by
      nlinarith [sq_nonneg (Real.sqrt vi - Real.sqrt wi),
        Real.sq_sqrt hv, Real.sq_sqrt hw,
        Real.sqrt_nonneg vi, Real.sqrt_nonneg wi]
    linarith
  | case4 k1 vi t1 k2 wi t2 h1 h2 ih =>
    rw [bhatMerge, if_neg h1, if_pos h2, sumW_cons]
    have hv : 0 ≤ vi := ha (k1, vi) (by simp)
    have hlb := sumW_lowerBound_le (k := k2) (nonneg_tail ha)
    have hs := ih (nonneg_lowerBound (nonneg_tail ha)) hb
    linarith
  | case5 k1 vi t1 k2 wi t2 h1 h2 ih =>
    rw [bhatMerge, if_neg h1, if_neg h2, sumW_cons (k2, wi) t2]
    have hw : 0 ≤ wi := hb (k2, wi) (by simp)
    have hlb := sumW_lowerBound_le (k := k1) (nonneg_tail hb)
    have hs := ih ha (nonneg_lowerBound (nonneg_tail hb))
    linarith

theorem l1Steps_le (a b : BowVector) : l1Steps a b ≤ a.length + b.length := by
  induction a, b using l1Steps.induct with
  | case1 b => simp [l1Steps]
  | case2 p t => simp [l1Steps]
  | case3 vi t1 k2 wi t2 ih =>
    rw [l1Steps, if_pos rfl]
    simp only [List.length_cons]
    omega
  | case4 k1 vi t1 k2 wi t2 h1 h2 ih =>
    rw [l1Steps, if_neg h1, if_pos h2]
    simp only [List.length_cons] at *
    omega
  | case5 k1 vi t1 k2 wi t2 h1 h2 ih =>
    rw [l1Steps, if_neg h1, if_neg h2]
    simp only [List.length_cons] at *
    omega

theorem chiSteps_le (a b : BowVector) : chiSteps a b ≤ a.length + b.length := by
  induction a, b using chiSteps.induct with
  | case1 b => simp [chiSteps]
  | case2 p t => simp [chiSteps]
  | case3 vi t1 k2 wi t2 ih =>
    rw [chiSteps, if_pos rfl]
    simp only [List.length_cons]
    omega
  | case4 k1 vi t1 k2 wi t2 h1 h2 ih =>
    rw [chiSteps, if_neg h1, if_pos h2]
    have hlb := lowerBound_length_le k2 t1
    simp only [List.length_cons] at *
    omega
  | case5 k1 vi t1 k2 wi t2 h1 h2 ih =>
    rw [chiSteps, if_neg h1, if_neg h2]
    have hlb := lowerBound_length_le k1 t2
    simp only [List.length_cons] at *
    omega

theorem klSteps_le (a b : BowVector) : klSteps a b ≤ a.length + b.length := by
  induction a, b using klSteps.induct with
  | case1 b => simp [klSteps]
  | case2 p t => simp [klSteps]
  | case3 vi t1 k2 wi t2 ih =>
    rw [klSteps, if_pos rfl]
    simp only [List.length_cons]
    omega
  | case4 k1 vi t1 k2 wi t2 h1 h2 ih =>
    rw [klSteps, if_neg h1, if_pos h2]
    simp only [List.length_cons] at *
    omega
  | case5 k1 vi t1 k2 wi t2 h1 h2 ih =>
    rw [klSteps, if_neg h1, if_neg h2]
    have hlb := lowerBound_length_le k1 t2
    simp only [List.length_cons] at *
    omega

theorem bhatSteps_le (a b : BowVector) : bhatSteps a b ≤ a.length + b.length := by
  induction a, b using bhatSteps.induct with
  | case1 b => simp [bhatSteps]
  | case2 p t => simp [bhatSteps]
  | case3 vi t1 k2 wi t2 ih =>
    rw [bhatSteps, if_pos rfl]
    simp only [List.length_cons]
    omega
  | case4 k1 vi t1 k2 wi t2 h1 h2 ih =>
    rw [bhatSteps, if_neg h1, if_pos h2]
    have hlb := lowerBound_length_le k2 t1
    simp only [List.length_cons] at *
    omega
  | case5 k1 vi t1 k2 wi t2 h1 h2 ih =>
    rw [bhatSteps, if_neg h1, if_neg h2]
    have hlb := lowerBound_length_le k1 t2
    simp only [List.length_cons] at *
    omega

theorem dotSteps_le (a b : BowVector) : dotSteps a b ≤ a.length + b.length := by
  induction a, b using dotSteps.induct with
  | case1 b => simp [dotSteps]
  | case2 p t => simp [dotSteps]
  | case3 vi t1 k2 wi t2 ih =>
    rw [dotSteps, if_pos rfl]
    simp only [List.length_cons]
    omega
  | case4 k1 vi t1 k2 wi t2 h1 h2 ih =>
    rw [dotSteps, if_neg h1, if_pos h2]
    have hlb := lowerBound_length_le k2 t1
    simp only [List.length_cons] at *
    omega
  | case5 k1 vi t1 k2 wi t2 h1 h2 ih =>
    rw [dotSteps, if_neg h1, if_neg h2]
    have hlb := lowerBound_length_le k1 t2
    simp only [List.length_cons] at *
    omega

theorem l2Steps_le (a b : BowVector) : l2Steps a b ≤ a.length + b.length := by
  simp [l2Steps]

/-- L2's partial sums realise exactly the per-entry L1 contributions: the
zero-valued pairs it skips would contribute 0, and a missing key
contributes nothing. -/
theorem l2sum_char (a b : BowVector) :
    l2sum a b =
      (a.map (mergeTerm (fun v w => |v - w| - |v| - |w|) (fun _ => 0) b)).sum := by
  induction a with
  | nil => simp [l2sum]
  | cons p t ih =>
    rw [l2sum, List.filterMap_cons] at *
    rw [List.map_cons, List.sum_cons]
    cases hl : List.lookup p.1 b with
    | none =>
      have ht : l2term b p = none := by
        simp [l2term, hl]
      rw [ht, mergeTerm_of_lookup_none _ _ hl, zero_add]
      exact ih
    | some w =>
      have hm : mergeTerm (fun v w => |v - w| - |v| - |w|) (fun _ => 0) b p
          = |p.2 - w| - |p.2| - |w| := by
        simp [mergeTerm, hl]
      by_cases hg : p.2 ≠ 0 ∨ w ≠ 0
      · have ht : l2term b p = some (|p.2 - w| - |p.2| - |w|) := by
          simp only [l2term, hl, if_pos hg]
        rw [ht, List.sum_cons, hm, ih]
      · have hz : p.2 = 0 ∧ w = 0 := by
          constructor
          · by_contra hc
            exact hg (Or.inl hc)
          · by_contra hc
            exact hg (Or.inr hc)
        have ht : l2term b p = none := by
          simp only [l2term, hl, if_neg hg]
        rw [ht, hm, hz.1, hz.2, ih]
        norm_num

/-- Each per-entry L1 contribution lies in [-2*weight, 0] for non-negative
weights. -/
theorem l1_term_bounds {b : BowVector} (hb : Nonneg b)
    (p : WordId × WordValue) (hp : 0 ≤ p.2) :
    -(2 * p.2) ≤ mergeTerm (fun v w => |v - w| - |v| - |w|) (fun _ => 0) b p ∧
      mergeTerm (fun v w => |v - w| - |v| - |w|) (fun _ => 0) b p ≤ 0 := by
  cases hl : List.lookup p.1 b with
  | none =>
    rw [mergeTerm_of_lookup_none _ _ hl]
    constructor <;> linarith
  | some w =>
    have hw : 0 ≤ w := hb (p.1, w) (mem_of_lookup_eq_some hl)
    have hm : mergeTerm (fun v w => |v - w| - |v| - |w|) (fun _ => 0) b p
        = |p.2 - w| - |p.2| - |w| := by
      simp [mergeTerm, hl]
    rw [hm, abs_of_nonneg hp, abs_of_nonneg hw]
    have h1 : |p.2 - w| ≤ p.2 + w := abs_le.mpr ⟨by linarith, by linarith⟩
    have h2 : -(p.2 - w) ≤ |p.2 - w| := neg_le_abs _
    constructor <;> linarith

/-- The summed L1 contributions lie in [-2*sumW a, 0]. -/
theorem l1sum_bounds (a b : BowVector) (ha : Nonneg a) (hb : Nonneg b) :
    -(2 * sumW a) ≤
        (a.map (mergeTerm (fun v w => |v - w| - |v| - |w|) (fun _ => 0) b)).sum ∧
      (a.map (mergeTerm (fun v w => |v - w| - |v| - |w|) (fun _ => 0) b)).sum ≤ 0 := by
  induction a with
  | nil => simp [sumW]
  | cons p t ih =>
    rw [List.map_cons, List.sum_cons, sumW_cons]
    have hp := l1_term_bounds hb p (ha p (by simp))
    have ht := ih (nonneg_tail ha)
    constructor <;> linarith

theorem lookup_eq_none_of_not_mem_keys {k : WordId} {b : BowVector}
    (hk : k ∉ keys b) : List.lookup k b = none := by
  rw [List.lookup_eq_none_iff]
  intro p hp
  simp only [bne_iff_ne, ne_eq]
  exact fun e => (keys_ne_of_not_mem hk p hp) e.symm

/-- Inserting a zero-weight entry into the first vector adds a vanishing
contribution, whenever the match term and miss term vanish at weight 0. -/
theorem sum_map_mergeTerm_insZero_left (f : WordValue → WordValue → ℝ)
    (miss : WordValue → ℝ) (hf0 : ∀ w, f 0 w = 0) (hm0 : miss 0 = 0)
    (k : WordId) (a b : BowVector) :
    ((insZero k a).map (mergeTerm f miss b)).sum
      = (a.map (mergeTerm f miss b)).sum := by
  rw [sum_map_insZero]
  cases hl : List.lookup k b with
  | none =>
    rw [mergeTerm_of_lookup_none _ _ hl]
    simp [hm0]
  | some w =>
    have hm : mergeTerm f miss b (k, (0:ℝ)) = f 0 w := by
      simp [mergeTerm, hl]
    rw [hm, hf0, zero_add]

/-- Inserting a zero-weight entry at a fresh key into the second vector
leaves every contribution unchanged, whenever matching against weight 0
coincides with missing. -/
theorem sum_map_mergeTerm_insZero_right (f : WordValue → WordValue → ℝ)
    (miss : WordValue → ℝ) (hfm : ∀ v, f v 0 = miss v)
    (k : WordId) (a b : BowVector) (hk : k ∉ keys b) :
    (a.map (mergeTerm f miss (insZero k b))).sum
      = (a.map (mergeTerm f miss b)).sum := by
  refine congrArg List.sum (List.map_congr_left fun p hp => ?_)
  by_cases hpk : p.1 = k
  · have h1 : List.lookup p.1 (insZero k b) = some 0 := by
      rw [hpk]
      exact lookup_insZero_self hk
    have h2 : List.lookup p.1 b = none := by
      rw [hpk]
      exact lookup_eq_none_of_not_mem_keys hk
    simp only [mergeTerm, h1, h2]
    exact hfm p.2
  · simp only [mergeTerm, lookup_insZero_of_ne hpk b]

theorem l2sum_nil_right (a : BowVector) : l2sum a [] = 0 := by
  rw [l2sum_char]
  rw [List.map_congr_left (fun (q : WordId × WordValue) _ => mergeTerm_nil
    (fun v w => |v - w| - |v| - |w|) (fun _ => 0) q)]
  simp

theorem l2sum_nil_left (b : BowVector) : l2sum [] b = 0 := by
  simp [l2sum]

theorem sparseInv_nil : SparseInv [] :=
  ⟨List.Pairwise.nil, by intro p hp; cases hp⟩

theorem sparseInv_singleton {k : WordId} {v : WordValue} (h : 0 ≤ v) :
    SparseInv [(k, v)] := by
  constructor
  · simp [Asc]
  · intro p hp
    rw [List.mem_singleton.mp hp]
    exact h

theorem sparseInv_pair {k1 k2 : WordId} {v1 v2 : WordValue}
    (hk : k1 < k2) (h1 : 0 ≤ v1) (h2 : 0 ≤ v2) :
    SparseInv [(k1, v1), (k2, v2)] := by
  constructor
  · simp [Asc, hk]
  · intro p hp
    rcases List.mem_cons.mp hp with hp | hp
    · rw [hp]; exact h1
    · rw [List.mem_singleton.mp hp]; exact h2

/-- Claim C1 counterexample: on a = b = {1: 0.5, 3: 0.5} the L1 score is not
0.5 (each of the two matched terms is -1, the sum is -2, and -(-2)/2 = 1). -/
theorem claim_C1_counterexample :
    L1Scoring.score [((1:ℕ), (1/2:ℝ)), (3, 1/2)] [(1, 1/2), (3, 1/2)] ≠ 1/2 := by
  rw [L1Scoring.score]
  norm_num [l1merge, abs_of_nonneg]

/-- Claim C1 (amended): for a = b = {1: 0.5, 3: 0.5}, L1Scoring::score
returns 1.0 (not 0.5), BhattacharyyaScoring::score returns 1.0, and
DotProductScoring::score returns 0.5. -/
theorem claim_C1_amended :
    L1Scoring.score [((1:ℕ), (1/2:ℝ)), (3, 1/2)] [(1, 1/2), (3, 1/2)] = 1 ∧
    BhattacharyyaScoring.score [((1:ℕ), (1/2:ℝ)), (3, 1/2)]
      [(1, 1/2), (3, 1/2)] = 1 ∧
    DotProductScoring.score [((1:ℕ), (1/2:ℝ)), (3, 1/2)]
      [(1, 1/2), (3, 1/2)] = 1/2 := by
  refine ⟨?_, ?_, ?_⟩
  · rw [L1Scoring.score]
    norm_num [l1merge, abs_of_nonneg]
  · rw [BhattacharyyaScoring.score, bhatMerge_self]
    · norm_num [sumW]
    · intro p hp
      rcases List.mem_cons.mp hp with hp | hp
      · rw [hp]; norm_num
      · rw [List.mem_singleton.mp hp]; norm_num
  · rw [DotProductScoring.score]
    norm_num [dotMerge]

/-- Claim C2 counterexample.  KL-divergence violates the claim in both
argument positions.  Second argument: with a = {1: 1} and b = {},
score(a, b) = 1*(ln 1 - LOG_EPS) = -LOG_EPS but score(a, {1: 0}) = 0,
because a stored zero at a matched key is skipped by the vi != 0 && wi != 0
guard instead of being penalised through the epsilon floor.  First
argument: with a = {2: 1} and b = {3: 1}, inserting {1: 0} into a makes the
unguarded divergence branch compute 0*(log(0) - LOG_EPS), NaN in IEEE
doubles: the instrumented evaluation returns none on the inserted input
but a clean value on the original one. -/
theorem claim_C2_counterexample :
    (SparseInv [((1:ℕ), (1:ℝ))] ∧ SparseInv ([] : BowVector) ∧
     (1:ℕ) ∉ keys ([] : BowVector) ∧
     KLScoring.score [((1:ℕ), (1:ℝ))] (insZero 1 [])
       ≠ KLScoring.score [((1:ℕ), (1:ℝ))] []) ∧
    (SparseInv [((2:ℕ), (1:ℝ))] ∧ SparseInv [((3:ℕ), (1:ℝ))] ∧
     (1:ℕ) ∉ keys [((2:ℕ), (1:ℝ))] ∧
     klMergeChecked (insZero 1 [((2:ℕ), (1:ℝ))]) [((3:ℕ), (1:ℝ))] = none ∧
     klMergeChecked [((2:ℕ), (1:ℝ))] [((3:ℕ), (1:ℝ))]
       = some (KLScoring.score [((2:ℕ), (1:ℝ))] [((3:ℕ), (1:ℝ))])) := by
  constructor
  · refine ⟨sparseInv_singleton (by norm_num), sparseInv_nil,
      by simp [keys], ?_⟩
    have h1 : insZero 1 ([] : BowVector) = [(1, 0)] := rfl
    rw [h1]
    simp only [KLScoring.score, klMerge, klTail, List.map_cons, List.map_nil,
      List.sum_cons, List.sum_nil, Real.log_one]
    have h := LOG_EPS_neg
    norm_num
    exact h.ne
  · refine ⟨sparseInv_singleton (by norm_num),
      sparseInv_singleton (by norm_num), by simp [keys], ?_, ?_⟩
    · have h1 : insZero 1 [((2:ℕ), (1:ℝ))] = [(1, 0), (2, 1)] := rfl
      rw [h1, klMergeChecked]
      norm_num
    · rw [KLScoring.score]
      exact klMergeChecked_pos _ _
        (fun p hp => by rw [List.mem_singleton.mp hp]; norm_num)
        (fun p hp => by rw [List.mem_singleton.mp hp]; norm_num)

/-- Claim C2 (amended): for every pair of vectors satisfying the Sparse
Vector invariant, inserting a zero-weight entry at a fresh key into either
argument leaves the L1, L2, Chi-Square, Bhattacharyya and Dot-Product
scores unchanged.  KL-divergence is excluded: it can change in both
argument positions (see the counterexample). -/
theorem claim_C2_amended (a b : BowVector) (k : WordId)
    (ha : SparseInv a) (hb : SparseInv b) :
    (k ∉ keys a →
      (L1Scoring.score (insZero k a) b = L1Scoring.score a b ∧
       L2Scoring.score (insZero k a) b = L2Scoring.score a b ∧
       ChiSquareScoring.score (insZero k a) b = ChiSquareScoring.score a b ∧
       BhattacharyyaScoring.score (insZero k a) b
         = BhattacharyyaScoring.score a b ∧
       DotProductScoring.score (insZero k a) b
         = DotProductScoring.score a b)) ∧
    (k ∉ keys b →
      (L1Scoring.score a (insZero k b) = L1Scoring.score a b ∧
       L2Scoring.score a (insZero k b) = L2Scoring.score a b ∧
       ChiSquareScoring.score a (insZero k b) = ChiSquareScoring.score a b ∧
       BhattacharyyaScoring.score a (insZero k b)
         = BhattacharyyaScoring.score a b ∧
       DotProductScoring.score a (insZero k b)
         = DotProductScoring.score a b)) := by
  constructor
  · intro hk
    have hasc : Asc (insZero k a) := asc_insZero ha.1 hk
    refine ⟨?_, ?_, ?_, ?_, ?_⟩
    · rw [L1Scoring.score, L1Scoring.score,
        l1merge_char _ _ hasc hb.1, l1merge_char a b ha.1 hb.1,
        sum_map_mergeTerm_insZero_left _ _
          (fun w => by rw [zero_sub, abs_neg, abs_zero]; ring) rfl]
    · rw [L2Scoring.score, L2Scoring.score, l2sum_char, l2sum_char,
        sum_map_mergeTerm_insZero_left _ _
          (fun w => by rw [zero_sub, abs_neg, abs_zero]; ring) rfl]
    · rw [ChiSquareScoring.score, ChiSquareScoring.score,
        chiMerge_char _ _ hasc hb.1, chiMerge_char a b ha.1 hb.1,
        sum_map_mergeTerm_insZero_left _ _
          (fun w => by split <;> simp) rfl]
    · rw [BhattacharyyaScoring.score, BhattacharyyaScoring.score,
        bhatMerge_char _ _ hasc hb.1, bhatMerge_char a b ha.1 hb.1,
        sum_map_mergeTerm_insZero_left _ _
          (fun w => by rw [zero_mul, Real.sqrt_zero]) rfl]
    · rw [DotProductScoring.score, DotProductScoring.score,
        dotMerge_char _ _ hasc hb.1, dotMerge_char a b ha.1 hb.1,
        sum_map_mergeTerm_insZero_left _ _ (fun w => zero_mul w) rfl]
  · intro hk
    have hasc : Asc (insZero k b) := asc_insZero hb.1 hk
    refine ⟨?_, ?_, ?_, ?_, ?_⟩
    · rw [L1Scoring.score, L1Scoring.score,
        l1merge_char _ _ ha.1 hasc, l1merge_char a b ha.1 hb.1,
        sum_map_mergeTerm_insZero_right _ _
          (fun v => by rw [sub_zero, abs_zero]; ring) k a b hk]
    · rw [L2Scoring.score, L2Scoring.score, l2sum_char, l2sum_char,
        sum_map_mergeTerm_insZero_right _ _
          (fun v => by rw [sub_zero, abs_zero]; ring) k a b hk]
    · rw [ChiSquareScoring.score, ChiSquareScoring.score,
        chiMerge_char _ _ ha.1 hasc, chiMerge_char a b ha.1 hb.1,
        sum_map_mergeTerm_insZero_right _ _
          (fun v => by split <;> simp) k a b hk]
    · rw [BhattacharyyaScoring.score, BhattacharyyaScoring.score,
        bhatMerge_char _ _ ha.1 hasc, bhatMerge_char a b ha.1 hb.1,
        sum_map_mergeTerm_insZero_right _ _
          (fun v => by rw [mul_zero, Real.sqrt_zero]) k a b hk]
    · rw [DotProductScoring.score, DotProductScoring.score,
        dotMerge_char _ _ ha.1 hasc, dotMerge_char a b ha.1 hb.1,
        sum_map_mergeTerm_insZero_right _ _ (fun v => mul_zero v) k a b hk]

/-- Claim C2 witness: a concrete instance of the amended claim. -/
theorem claim_C2_witness :
    SparseInv [((2:ℕ), (1:ℝ))] ∧ SparseInv [((1:ℕ), (1:ℝ))] ∧
    (0:ℕ) ∉ keys [((2:ℕ), (1:ℝ))] ∧
    L1Scoring.score (insZero 0 [((2:ℕ), (1:ℝ))]) [((1:ℕ), (1:ℝ))]
      = L1Scoring.score [((2:ℕ), (1:ℝ))] [((1:ℕ), (1:ℝ))] := by
  have h1 : SparseInv [((2:ℕ), (1:ℝ))] := sparseInv_singleton (by norm_num)
  have h2 : SparseInv [((1:ℕ), (1:ℝ))] := sparseInv_singleton (by norm_num)
  have hk : (0:ℕ) ∉ keys [((2:ℕ), (1:ℝ))] := by simp [keys]
  exact ⟨h1, h2, hk, ((claim_C2_amended _ _ 0 h1 h2).1 hk).1⟩

/-- Claim C3 counterexample: both vectors satisfy the Sparse Vector
invariant (a stored zero weight is legal), yet the KL merge loop evaluates
log at argument 0: with a = {0: 0} and b = {1: 1} the divergence branch
computes 0 * (log 0 - LOG_EPS) without any guard on vi. -/
theorem claim_C3_counterexample :
    SparseInv [((0:ℕ), (0:ℝ))] ∧ SparseInv [((1:ℕ), (1:ℝ))] ∧
    klMergeChecked [((0:ℕ), (0:ℝ))] [((1:ℕ), (1:ℝ))] = none := by
  refine ⟨sparseInv_singleton (by norm_num),
    sparseInv_singleton (by norm_num), ?_⟩
  rw [klMergeChecked]
  norm_num

/-- Claim C3 (amended): when every weight of the first vector is strictly
positive (and the second satisfies the Sparse Vector invariant), the KL
score never evaluates log at a non-positive argument nor divides by zero,
and the instrumented computation returns exactly KLScoring::score. -/
theorem claim_C3_amended (a b : BowVector) (hpos : Pos a)
    (hb : SparseInv b) :
    klMergeChecked a b = some (KLScoring.score a b) := by
  rw [KLScoring.score]
  exact klMergeChecked_pos a b hpos hb.2

/-- Claim C3 witness: a concrete instance of the amended claim. -/
theorem claim_C3_witness :
    klMergeChecked [((0:ℕ), (1:ℝ))] []
      = some (KLScoring.score [((0:ℕ), (1:ℝ))] []) :=
  claim_C3_amended [((0:ℕ), (1:ℝ))] []
    (fun p hp => by rw [List.mem_singleton.mp hp]; norm_num)
    sparseInv_nil

/-- Claim C4 counterexample: with no constraint beyond the Sparse Vector
invariant the L1 score is not bounded by 1: score({1:5}, {1:5}) = 5. -/
theorem claim_C4_counterexample :
    SparseInv [((1:ℕ), (5:ℝ))] ∧
    ¬(L1Scoring.score [((1:ℕ), (5:ℝ))] [(1, 5)] ≤ 1) := by
  refine ⟨sparseInv_singleton (by norm_num), ?_⟩
  rw [L1Scoring.score]
  norm_num [l1merge]

/-- Claim C4 (amended): for vectors satisfying the Sparse Vector invariant,
the L1 score -(sum of matched |vi-wi| - |vi| - |wi|)/2 is always
non-negative, and it lies in [0,1] under the additional precondition that
the first vector's weights sum to at most 1. -/
theorem claim_C4_amended (a b : BowVector) (ha : SparseInv a)
    (hb : SparseInv b) :
    0 ≤ L1Scoring.score a b ∧
    (sumW a ≤ 1 → L1Scoring.score a b ≤ 1) := by
  rw [L1Scoring.score, l1merge_char a b ha.1 hb.1]
  have hbounds := l1sum_bounds a b ha.2 hb.2
  constructor
  · linarith [hbounds.2]
  · intro hs
    linarith [hbounds.1]

/-- Claim C4 witness: a concrete instance of the amended claim. -/
theorem claim_C4_witness :
    SparseInv [((1:ℕ), (1:ℝ))] ∧ sumW [((1:ℕ), (1:ℝ))] ≤ 1 ∧
    0 ≤ L1Scoring.score [((1:ℕ), (1:ℝ))] [((1:ℕ), (1:ℝ))] ∧
    L1Scoring.score [((1:ℕ), (1:ℝ))] [((1:ℕ), (1:ℝ))] ≤ 1 := by
  have h1 : SparseInv [((1:ℕ), (1:ℝ))] := sparseInv_singleton (by norm_num)
  have hs : sumW [((1:ℕ), (1:ℝ))] ≤ 1 := by norm_num [sumW]
  have hmain := claim_C4_amended _ _ h1 h1
  exact ⟨h1, hs, hmain.1, hmain.2 hs⟩

/-- Claim C5: for vectors satisfying the Sparse Vector invariant,
L2Scoring::score computes exactly the same value as L1Scoring::score
(in exact real arithmetic), differing only in how the matched terms are
enumerated and reduced. -/
theorem claim_C5 (a b : BowVector) (ha : SparseInv a) (hb : SparseInv b) :
    L2Scoring.score a b = L1Scoring.score a b := by
  rw [L1Scoring.score, L2Scoring.score, l2sum_char,
    l1merge_char a b ha.1 hb.1]

/-- Claim C5 witness: a concrete instance. -/
theorem claim_C5_witness :
    L2Scoring.score [((1:ℕ), (1:ℝ)), (2, 2)] [((2:ℕ), (3:ℝ))]
      = L1Scoring.score [((1:ℕ), (1:ℝ)), (2, 2)] [((2:ℕ), (3:ℝ))] :=
  claim_C5 _ _ (sparseInv_pair (by norm_num) (by norm_num) (by norm_num))
    (sparseInv_singleton (by norm_num))

/-- Claim C6: for a non-empty vector a satisfying the Sparse Vector
invariant, the Bhattacharyya self-score equals the sum of a's weights and
is maximal among scores against vectors of the same total weight, and the
Chi-Square self-score also equals the sum of a's weights. -/
theorem claim_C6 (a : BowVector) (ha : SparseInv a) (hne : a ≠ []) :
    BhattacharyyaScoring.score a a = sumW a ∧
    (∀ b, SparseInv b → sumW b = sumW a →
      BhattacharyyaScoring.score a b ≤ BhattacharyyaScoring.score a a) ∧
    ChiSquareScoring.score a a = sumW a := by
  have hself : BhattacharyyaScoring.score a a = sumW a := by
    rw [BhattacharyyaScoring.score, bhatMerge_self ha.2]
  refine ⟨hself, ?_, ?_⟩
  · intro b hb hsum
    rw [hself, BhattacharyyaScoring.score]
    have h := bhatMerge_le a b ha.2 hb.2
    rw [hsum] at h
    linarith
  · rw [ChiSquareScoring.score, chiMerge_self]
    ring

/-- Claim C6 witness: a concrete instance. -/
theorem claim_C6_witness :
    BhattacharyyaScoring.score [((1:ℕ), (1:ℝ))] [((1:ℕ), (1:ℝ))]
      = sumW [((1:ℕ), (1:ℝ))] :=
  (claim_C6 _ (sparseInv_singleton (by norm_num)) (by simp)).1

/-- Claim C7: L1, Chi-Square, Bhattacharyya and Dot-Product are exactly
symmetric on vectors satisfying the Sparse Vector invariant, while
KL-divergence is not symmetric for some valid pair. -/
theorem claim_C7 :
    (∀ a b : BowVector, SparseInv a → SparseInv b →
      L1Scoring.score a b = L1Scoring.score b a ∧
      ChiSquareScoring.score a b = ChiSquareScoring.score b a ∧
      BhattacharyyaScoring.score a b = BhattacharyyaScoring.score b a ∧
      DotProductScoring.score a b = DotProductScoring.score b a) ∧
    (∃ a b : BowVector, SparseInv a ∧ SparseInv b ∧
      KLScoring.score a b ≠ KLScoring.score b a) := by
  constructor
  · intro a b ha hb
    refine ⟨?_, ?_, ?_, ?_⟩
    · rw [L1Scoring.score, L1Scoring.score, l1merge_comm]
    · rw [ChiSquareScoring.score, ChiSquareScoring.score, chiMerge_comm]
    · rw [BhattacharyyaScoring.score, BhattacharyyaScoring.score,
        bhatMerge_comm]
    · rw [DotProductScoring.score, DotProductScoring.score, dotMerge_comm]
  · refine ⟨[((0:ℕ), (1:ℝ))], [], sparseInv_singleton (by norm_num),
      sparseInv_nil, ?_⟩
    simp only [KLScoring.score, klMerge, klTail, List.map_cons, List.map_nil,
      List.sum_cons, List.sum_nil, Real.log_one]
    have h := LOG_EPS_neg
    norm_num
    exact h.ne

/-- Claim C7 witness: a concrete instance of the symmetric part. -/
theorem claim_C7_witness :
    L1Scoring.score [((1:ℕ), (2:ℝ))] [((1:ℕ), (3:ℝ))]
      = L1Scoring.score [((1:ℕ), (3:ℝ))] [((1:ℕ), (2:ℝ))] :=
  (claim_C7.1 _ _ (sparseInv_singleton (by norm_num))
    (sparseInv_singleton (by norm_num))).1

/-- Claim C8: scoring against the empty vector yields 0 for L1, L2,
Chi-Square, Bhattacharyya and Dot-Product in either argument position; the
KL score of a against the empty vector is the guarded tail sum of
vi*(ln(vi) - LOG_EPS); concretely, KLScoring::score({1: 0.5}, {}) equals
0.5*(ln(0.5) - LOG_EPS). -/
theorem claim_C8 (a : BowVector) (ha : SparseInv a) :
    (L1Scoring.score a [] = 0 ∧ L1Scoring.score [] a = 0 ∧
     L2Scoring.score a [] = 0 ∧ L2Scoring.score [] a = 0 ∧
     ChiSquareScoring.score a [] = 0 ∧ ChiSquareScoring.score [] a = 0 ∧
     BhattacharyyaScoring.score a [] = 0 ∧
     BhattacharyyaScoring.score [] a = 0 ∧
     DotProductScoring.score a [] = 0 ∧ DotProductScoring.score [] a = 0 ∧
     KLScoring.score a [] =
       (a.map (fun p =>
         if p.2 ≠ 0 then p.2 * (Real.log p.2 - GeneralScoring.LOG_EPS)
         else 0)).sum) ∧
    KLScoring.score [((1:ℕ), (1/2:ℝ))] []
      = 1/2 * (Real.log (1/2) - GeneralScoring.LOG_EPS) := by
  constructor
  · refine ⟨?_, ?_, ?_, ?_, ?_, ?_, ?_, ?_, ?_, ?_, ?_⟩
    · rw [L1Scoring.score, l1merge_nil_right]; norm_num
    · rw [L1Scoring.score, l1merge]; norm_num
    · rw [L2Scoring.score, l2sum_nil_right]; norm_num
    · rw [L2Scoring.score, l2sum_nil_left]; norm_num
    · rw [ChiSquareScoring.score, chiMerge_nil_right]; norm_num
    · rw [ChiSquareScoring.score, chiMerge]; norm_num
    · rw [BhattacharyyaScoring.score, bhatMerge_nil_right]
    · rw [BhattacharyyaScoring.score, bhatMerge]
    · rw [DotProductScoring.score, dotMerge_nil_right]
    · rw [DotProductScoring.score, dotMerge]
    · rw [KLScoring.score, klMerge_nil_right, klTail]
  · rw [KLScoring.score, klMerge, klTail]
    norm_num

/-- Claim C8 witness: a concrete instance. -/
theorem claim_C8_witness :
    L1Scoring.score [((5:ℕ), (2:ℝ))] [] = 0 :=
  ((claim_C8 [((5:ℕ), (2:ℝ))] (sparseInv_singleton (by norm_num))).1).1

/-- Claim C9: every one of the six score computations terminates; each
merge loop performs at most length(a) + length(b) iterations, every
iteration strictly advancing at least one cursor. -/
theorem claim_C9 (a b : BowVector) (ha : SparseInv a) (hb : SparseInv b) :
    l1Steps a b ≤ a.length + b.length ∧
    l2Steps a b ≤ a.length + b.length ∧
    chiSteps a b ≤ a.length + b.length ∧
    klSteps a b ≤ a.length + b.length ∧
    bhatSteps a b ≤ a.length + b.length ∧
    dotSteps a b ≤ a.length + b.length :=
  ⟨l1Steps_le a b, l2Steps_le a b, chiSteps_le a b, klSteps_le a b,
    bhatSteps_le a b, dotSteps_le a b⟩

/-- Claim C9 witness: a concrete instance. -/
theorem claim_C9_witness :
    l1Steps [((1:ℕ), (1:ℝ))] [((2:ℕ), (1:ℝ))]
        ≤ [((1:ℕ), (1:ℝ))].length + [((2:ℕ), (1:ℝ))].length ∧
    l2Steps [((1:ℕ), (1:ℝ))] [((2:ℕ), (1:ℝ))]
        ≤ [((1:ℕ), (1:ℝ))].length + [((2:ℕ), (1:ℝ))].length ∧
    chiSteps [((1:ℕ), (1:ℝ))] [((2:ℕ), (1:ℝ))]
        ≤ [((1:ℕ), (1:ℝ))].length + [((2:ℕ), (1:ℝ))].length ∧
    klSteps [((1:ℕ), (1:ℝ))] [((2:ℕ), (1:ℝ))]
        ≤ [((1:ℕ), (1:ℝ))].length + [((2:ℕ), (1:ℝ))].length ∧
    bhatSteps [((1:ℕ), (1:ℝ))] [((2:ℕ), (1:ℝ))]
        ≤ [((1:ℕ), (1:ℝ))].length + [((2:ℕ), (1:ℝ))].length ∧
    dotSteps [((1:ℕ), (1:ℝ))] [((2:ℕ), (1:ℝ))]
        ≤ [((1:ℕ), (1:ℝ))].length + [((2:ℕ), (1:ℝ))].length :=
  claim_C9 _ _ (sparseInv_singleton (by norm_num))
    (sparseInv_singleton (by norm_num))

/-- Claim C10: for every vector satisfying the Sparse Vector invariant the
KL self-score is 0: matched non-zero weights contribute vi*ln(vi/vi) = 0,
zero weights are skipped by the guard, and the tail loop is empty. -/
theorem claim_C10 (a : BowVector) (ha : SparseInv a) :
    KLScoring.score a a = 0 := by
  rw [KLScoring.score, klMerge_self]

/-- Claim C10 witness: a concrete instance. -/
theorem claim_C10_witness :
    KLScoring.score [((1:ℕ), (1/2:ℝ))] [((1:ℕ), (1/2:ℝ))] = 0 :=
  claim_C10 _ (sparseInv_singleton (by norm_num))

end DBoW2
